import Mathlib

/-!
Verification development for the orgparse repository: a shallow embedding of
the arena-based node pool, the block end-marker search, keyword/macro-definition
parsing, node-property accumulation, and the round-trip (Org) exporter's
table rendering, indentation-aware sink and error accumulation, together with
theorems settling the specification claims about them.

Buffers are embedded as `List Char` (the source scans raw bytes of UTF-8 text
with ASCII-only predicates, so character-level scanning is faithful on the
inputs considered), output as `String`, machine integers as `Nat`.
-/

namespace Orgparse

/-- ASCII whitespace, mirroring Rust `u8::is_ascii_whitespace`
(space, tab, newline, form feed, carriage return). -/
def isAsciiWs (c : Char) : Bool :=
  c = ' ' || c = '\t' || c = '\n' || c = Char.ofNat 12 || c = '\r'

/-- Horizontal ASCII whitespace (space and tab), the characters skipped by the
cursor's `skip_ws` primitive. -/
def isHorizWs (c : Char) : Bool :=
  c = ' ' || c = '\t'

/-- The grammar-local failure type `MatchError` from `src/src/types.rs`. -/
inductive MatchError where
  | InvalidLogic
  | EofError
  | InvalidIndentation
deriving DecidableEq, Repr

/-- Result of a scanning primitive: the matched slice and the index one past it
(the `Match` struct of the source's utils). -/
structure MatchRes where
  obj : List Char
  stop : Nat
deriving DecidableEq, Repr

/-- Modelled from the spec: the cursor primitive `word(literal)` (utils.rs is
not under src/); succeeds iff the buffer at the index starts with the literal,
advancing past it. -/
def word (buf : List Char) (i : Nat) (lit : List Char) : Except MatchError Nat :=
  if (buf.drop i).take lit.length = lit then .ok (i + lit.length) else .error .InvalidLogic

/-- Modelled from the spec: the cursor primitive `fn_until(predicate)`
(utils.rs is not under src/); scans forward until the predicate holds on the
current character, returning the scanned slice and its end offset, and fails
with `EofError` if it runs off the buffer. -/
def fnUntil (buf : List Char) (i : Nat) (p : Char → Bool) : Except MatchError MatchRes :=
  if ((buf.drop i).takeWhile (fun c => !(p c))).length = (buf.drop i).length
  then .error .EofError
  else .ok ⟨(buf.drop i).takeWhile (fun c => !(p c)),
            i + ((buf.drop i).takeWhile (fun c => !(p c))).length⟩

/-- Modelled from the spec: the cursor primitive `fn_while(predicate)`
(utils.rs is not under src/); scans forward while the predicate holds. -/
def fnWhile (buf : List Char) (i : Nat) (p : Char → Bool) : Except MatchError MatchRes :=
  fnUntil buf i (fun c => !(p c))

/-- Modelled from the spec: the cursor primitive `skip_ws` (utils.rs is not
under src/); advances past ASCII horizontal whitespace and never fails. -/
def skipWs (buf : List Char) (i : Nat) : Nat :=
  i + ((buf.drop i).takeWhile isHorizWs).length

/-! ## Node pool (src/org-parser/src/node_pool.rs) -/

/-- The payloads a node can carry, restricted to the kinds the claims touch.
Branch kinds carry child-lists of node ids (`Nat`, the integer inside
`NodeID`); leaf kinds carry literal data.  `Keyword` carries the key/value of
a `#+key: value` line. -/
inductive Expr where
  | Root (children : List Nat)
  | Paragraph (children : List Nat)
  | Plain (s : String)
  | BlankLine
  | Keyword (key val : String)
deriving DecidableEq, Repr

/-- The `children_mut` accessor: the child list of a branch payload, `none`
for leaves. -/
def Expr.childList : Expr → Option (List Nat)
  | .Root cs => some cs
  | .Paragraph cs => some cs
  | _ => none

/-- Replace the child list of a branch payload (the write-back half of
`children_mut`); identity on leaves. -/
def Expr.setChildren : Expr → List Nat → Expr
  | .Root _, cs => .Root cs
  | .Paragraph _, cs => .Paragraph cs
  | e, _ => e

/-- A parsed node: payload, byte span `[start, stop)` and weak parent link
(`Node` in src/src/types.rs). -/
structure Node where
  obj : Expr
  start : Nat
  stop : Nat
  parent : Option Nat
deriving DecidableEq, Repr

/-- The default placeholder node pushed by `reserve_id`
(`Node::default()`: a `BlankLine` with zero span and no parent). -/
def Node.default : Node := ⟨.BlankLine, 0, 0, none⟩

/-- The arena (`NodePool`): the growable node sequence plus the running
counter that hands out identifiers. -/
structure NodePool where
  inner_vec : List Node
  counter : Nat
deriving DecidableEq, Repr

/-- `NodePool::new`. -/
def NodePool.new : NodePool := ⟨[], 0⟩

/-- `NodePool::alloc`: push a fully formed node and return the previous
counter value as its id. -/
def NodePool.alloc (p : NodePool) (n : Node) : Nat × NodePool :=
  (p.counter, ⟨p.inner_vec ++ [n], p.counter + 1⟩)

/-- `NodePool::reserve_id`: push a default placeholder and return the previous
counter value as its id. -/
def NodePool.reserveId (p : NodePool) : Nat × NodePool :=
  (p.counter, ⟨p.inner_vec ++ [Node.default], p.counter + 1⟩)

/-- `NodePool::alloc_with_id`: overwrite the slot at `target_id` in place and
return `target_id`.  (The Rust indexing panics if the id is out of range; the
claim only concerns in-range targets, and `List.set` is the identity there.) -/
def NodePool.allocWithId (p : NodePool) (n : Node) (targetId : Nat) : Nat × NodePool :=
  (targetId, ⟨p.inner_vec.set targetId n, p.counter⟩)

/-- The pool invariant maintained throughout parsing: the counter equals the
number of allocated slots. -/
def NodePool.inv (p : NodePool) : Prop := p.counter = p.inner_vec.length

/-- `NodePool::delete_node`: remove the node's id from its parent's
child-list.  The source unwraps the parent link, the parent's `children_mut`
and the position of the id; each failing unwrap is a panic, modelled as
`none`. -/
def NodePool.deleteNode (p : NodePool) (indexId : Nat) : Option NodePool := do
  let node ← p.inner_vec.get? indexId
  let parId ← node.parent
  let parNode ← p.inner_vec.get? parId
  let children ← parNode.obj.childList
  let idx ← children.findIdx? (fun x => x = indexId)
  some ⟨p.inner_vec.set parId
          { parNode with obj := parNode.obj.setChildren (children.eraseIdx idx) },
        p.counter⟩

/-- Helper: `findIdx?` on a list containing `a` returns the first index, and
that index holds `a`. -/
theorem findIdx_of_mem {l : List Nat} {a : Nat} (h : a ∈ l) :
    ∃ k, l.findIdx? (fun x => x = a) = some k ∧ l.get? k = some a := by
  induction l with
  | nil => cases h
  | cons b t ih =>
    by_cases hb : b = a
    · exact ⟨0, by simp [List.findIdx?_cons, hb], by simp [hb]⟩
    · rcases List.mem_cons.mp h with h1 | h2
      · exact absurd h1.symm hb
      · rcases ih h2 with ⟨k, hk, hget⟩
        refine ⟨k + 1, ?_, by simpa using hget⟩
        simp only [List.findIdx?_cons, hb, decide_eq_true_eq, if_false]
        rw [List.findIdx?_succ]
        simp [hk]

/-- Helper: erasing an index that holds `a` drops exactly one occurrence
of `a`. -/
theorem count_eraseIdx_of_get {l : List Nat} {k : Nat} {a : Nat}
    (h : l.get? k = some a) : (l.eraseIdx k).count a + 1 = l.count a := by
  induction l generalizing k with
  | nil => simp at h
  | cons b t ih =>
    cases k with
    | zero =>
      simp only [List.get?] at h
      cases h
      simp [List.count_cons]
    | succ k =>
      simp only [List.get?] at h
      have := ih h
      simp only [List.eraseIdx, List.count_cons]
      omega

/-- C8: the arena keeps `counter = inner_vec.length`; `alloc` and `reserve_id`
return the pool length before the call as the new id (hence successive ids
strictly increase, witnessed by the counter advancing by one per allocation),
the returned id indexes a valid slot afterwards, and `alloc_with_id` changes
neither the length nor the counter. -/
theorem nodePool_alloc_ids_valid (p : NodePool) (n m : Node) (t : Nat)
    (h : p.inv) :
    (p.alloc n).1 = p.inner_vec.length ∧
    (p.alloc n).2.inv ∧
    (p.alloc n).1 < (p.alloc n).2.inner_vec.length ∧
    (p.alloc n).2.inner_vec.get? (p.alloc n).1 = some n ∧
    p.reserveId.1 = p.inner_vec.length ∧
    p.reserveId.2.inv ∧
    p.reserveId.1 < p.reserveId.2.inner_vec.length ∧
    (p.allocWithId n t).2.inner_vec.length = p.inner_vec.length ∧
    (p.allocWithId n t).2.counter = p.counter ∧
    (p.allocWithId n t).2.inv ∧
    (p.alloc n).2.counter = p.counter + 1 ∧
    p.reserveId.2.counter = p.counter + 1 ∧
    ((p.alloc n).2.alloc m).1 = (p.alloc n).1 + 1 := by
  unfold NodePool.inv at h
  refine ⟨by simp [NodePool.alloc, h], by simp [NodePool.inv, NodePool.alloc, h], ?_, ?_,
    by simp [NodePool.reserveId, h], by simp [NodePool.inv, NodePool.reserveId, h], ?_,
    by simp [NodePool.allocWithId], by simp [NodePool.allocWithId],
    by simp [NodePool.inv, NodePool.allocWithId, h], by simp [NodePool.alloc],
    by simp [NodePool.reserveId], by simp [NodePool.alloc, h]⟩
  · simp [NodePool.alloc, h]
  · simp only [NodePool.alloc, h]
    rw [List.get?_eq_getElem?, List.getElem?_append_right (by omega)]
    simp
  · simp [NodePool.reserveId, h]

/-- Witness for C8 at the empty pool. -/
theorem nodePool_alloc_ids_valid_witness :
    NodePool.new.inv ∧
    (NodePool.new.alloc Node.default).1 = NodePool.new.inner_vec.length ∧
    (NodePool.new.alloc Node.default).2.inv :=
  ⟨rfl, (nodePool_alloc_ids_valid NodePool.new Node.default Node.default 0 rfl).1,
    (nodePool_alloc_ids_valid NodePool.new Node.default Node.default 0 rfl).2.1⟩

/-- C9: `delete_node`, on a node whose parent lists it among its children,
removes exactly that one occurrence from the parent's child-list and changes
nothing else: pool length and counter are unchanged, every slot other than the
parent's is untouched, the parent keeps its span/parent/payload except for the
erased child entry, and the deleted node's own slot retains its contents. -/
theorem deleteNode_frame (p : NodePool) (id par : Nat) (node parNode : Node)
    (cs : List Nat)
    (hnode : p.inner_vec.get? id = some node)
    (hpar : node.parent = some par)
    (hparNode : p.inner_vec.get? par = some parNode)
    (hcs : parNode.obj.childList = some cs)
    (hmem : id ∈ cs) :
    ∃ p', p.deleteNode id = some p' ∧
      p'.inner_vec.length = p.inner_vec.length ∧
      p'.counter = p.counter ∧
      (∀ j, j ≠ par → p'.inner_vec.get? j = p.inner_vec.get? j) ∧
      (∃ k, cs.findIdx? (fun x => x = id) = some k ∧ cs.get? k = some id ∧
        p'.inner_vec.get? par =
          some { parNode with obj := parNode.obj.setChildren (cs.eraseIdx k) } ∧
        (cs.eraseIdx k).count id + 1 = cs.count id) ∧
      (id ≠ par → p'.inner_vec.get? id = some node) := by
  rcases findIdx_of_mem hmem with ⟨k, hfind, hgetk⟩
  rw [List.get?_eq_getElem?] at hnode hparNode
  have hparlt : par < p.inner_vec.length := (List.getElem?_eq_some.mp hparNode).1
  refine ⟨⟨p.inner_vec.set par
      { parNode with obj := parNode.obj.setChildren (cs.eraseIdx k) }, p.counter⟩,
    ?_, ?_, rfl, ?_, ?_, ?_⟩
  · simp [NodePool.deleteNode, hnode, hpar, hparNode, hcs, hfind]
  · simp
  · intro j hj
    simp only [List.get?_eq_getElem?]
    exact List.getElem?_set_ne (fun hh => hj hh.symm)
  · refine ⟨k, hfind, hgetk, ?_, count_eraseIdx_of_get hgetk⟩
    simp only [List.get?_eq_getElem?]
    exact List.getElem?_set_self hparlt
  · intro hne
    simp only [List.get?_eq_getElem?]
    rw [List.getElem?_set_ne (fun hh => hne hh.symm)]
    exact hnode

/-- Witness for C9 on a two-node pool: a root listing one child, then deleting
the child detaches it while its slot survives. -/
theorem deleteNode_frame_witness :
    ∃ p', (NodePool.mk [⟨.Root [1], 0, 2, none⟩, ⟨.Plain "x", 0, 1, some 0⟩] 2).deleteNode 1
        = some p' ∧
      p'.inner_vec.length =
        (NodePool.mk [⟨.Root [1], 0, 2, none⟩, ⟨.Plain "x", 0, 1, some 0⟩] 2).inner_vec.length ∧
      p'.counter = 2 ∧
      (∀ j, j ≠ 0 → p'.inner_vec.get? j =
        (NodePool.mk [⟨.Root [1], 0, 2, none⟩, ⟨.Plain "x", 0, 1, some 0⟩] 2).inner_vec.get? j) ∧
      (∃ k, ([1] : List Nat).findIdx? (fun x => x = 1) = some k ∧
        ([1] : List Nat).get? k = some 1 ∧
        p'.inner_vec.get? 0 =
          some { (Node.mk (.Root [1]) 0 2 none) with
                   obj := (Expr.Root [1]).setChildren (([1] : List Nat).eraseIdx k) } ∧
        (([1] : List Nat).eraseIdx k).count 1 + 1 = ([1] : List Nat).count 1) ∧
      ((1 : Nat) ≠ 0 → p'.inner_vec.get? 1 = some ⟨.Plain "x", 0, 1, some 0⟩) :=
  deleteNode_frame _ 1 0 ⟨.Plain "x", 0, 1, some 0⟩ ⟨.Root [1], 0, 2, none⟩ [1]
    rfl rfl rfl rfl (by decide)

/-! ## Blocks (src/src/element/block.rs) -/

/-- `BlockKind` from block.rs: greater kinds (`Center`, `Quote`, `Special`)
and lesser kinds (`Comment`, `Example`, `Export`, `Src`, `Verse`). -/
inductive BlockKind where
  | Center
  | Quote
  | Special (name : List Char)
  | Comment
  | Example
  | Export
  | Src (lang : List Char)
  | Verse
deriving DecidableEq, Repr

/-- `BlockKind::is_lesser`. -/
def BlockKind.isLesser : BlockKind → Bool
  | .Comment | .Example | .Export | .Src _ | .Verse => true
  | _ => false

/-- `BlockKind::to_end`: the pre-known end needle for non-special kinds. -/
def BlockKind.toEnd : BlockKind → Option (List Char)
  | .Center => some "#+end_center\n".toList
  | .Quote => some "#+end_quote\n".toList
  | .Comment => some "#+end_comment\n".toList
  | .Example => some "#+end_example\n".toList
  | .Export => some "#+end_export\n".toList
  | .Src _ => some "#+end_src\n".toList
  | .Verse => some "#+end_verse\n".toList
  | .Special _ => none

/-- `From<&str> for BlockKind`: classify by the lowercased name.  The `"src"`
arm is `unreachable!()` in the source (a panic), modelled as `none`. -/
def BlockKind.fromStr (value : List Char) : Option BlockKind :=
  let lower := value.map Char.toLower
  if lower = "center".toList then some .Center
  else if lower = "quote".toList then some .Quote
  else if lower = "comment".toList then some .Comment
  else if lower = "example".toList then some .Example
  else if lower = "export".toList then some .Export
  else if lower = "verse".toList then some .Verse
  else if lower = "src".toList then none
  else some (.Special value)

/-- Result of the backward walk from an end-marker candidate to the preceding
newline (block.rs lines 95-101): the newline's index on success, `reject` when
a non-whitespace character precedes the candidate on its line, `panic` when
the walk underflows index 0 or reads out of bounds. -/
inductive WalkRes where
  | newlineAt (loc : Nat)
  | reject
  | panic
deriving DecidableEq, Repr

/-- The backward walk of block.rs lines 96-101, starting at index `j`:
while the current byte is not a newline, reject if it is not whitespace,
otherwise step back (underflowing at 0 is the Rust `usize` panic). -/
def walkback (buf : List Char) : Nat → WalkRes
  | 0 =>
    match buf.get? 0 with
    | none => .panic
    | some c => if c = '\n' then .newlineAt 0 else if isAsciiWs c then .panic else .reject
  | j + 1 =>
    match buf.get? (j + 1) with
    | none => .panic
    | some c =>
      if c = '\n' then .newlineAt (j + 1)
      else if isAsciiWs c then walkback buf j else .reject

/-- The needle occurs in the buffer starting at index `m` (with the full
needle in bounds), the matches yielded by `memmem::find_iter`. -/
def occurrenceAt (buf needle : List Char) (m : Nat) : Bool :=
  decide ((buf.drop m).take needle.length = needle)

/-- Fuelled scan for the first needle occurrence at or after `p`
(`memmem::find_iter`'s next match). -/
def findOccF (buf needle : List Char) : Nat → Nat → Option Nat
  | 0, _ => none
  | f + 1, p =>
    if buf.length < p then none
    else if occurrenceAt buf needle p then some p
    else findOccF buf needle f (p + 1)

/-- Outcome of the end-marker search loop of block.rs lines 91-108. -/
inductive SearchRes where
  | found (loc stop : Nat)
  | invalid
  | panic
deriving DecidableEq, Repr

/-- The end-marker search loop (block.rs lines 91-108), fuelled: take the next
`find_iter` match, walk backwards to the preceding newline; accept if only
whitespace precedes the match on its line, otherwise continue with the next
match; no further match is `InvalidLogic`.  Exhausted fuel only occurs past
the end of the buffer, where the real loop finds no match. -/
def endSearchF (buf needle : List Char) : Nat → Nat → SearchRes
  | 0, _ => .invalid
  | f + 1, pos =>
    match findOccF buf needle (buf.length + 1 - pos) pos with
    | none => .invalid
    | some m =>
      match (if m = 0 then WalkRes.panic else walkback buf (m - 1)) with
      | .newlineAt loc => .found loc (m + needle.length)
      | .reject => endSearchF buf needle f (m + needle.length)
      | .panic => .panic

/-- The end-marker search of `Block::parse`, starting just past the newline
that ends the `#+begin_` line. -/
def blockEndSearch (buf needle : List Char) (pos : Nat) : SearchRes :=
  endSearchF buf needle (buf.length + 1) pos

/-- Outcome of `Block::parse` (block.rs lines 23-153).  Greater blocks are cut
at the point where the source starts parsing child elements via
`parse_element` (which lives outside the excerpted parser core): the head
carries the computed kind, parameters, content start, content end (`loc`) and
the block's end offset.  `panic` marks executions where the source indexes out
of bounds or reaches `unreachable!()`. -/
inductive BlockParseRes where
  | lesser (kind : BlockKind) (parameters : Option (List Char)) (contents : List Char)
      (start stop : Nat)
  | greaterHead (kind : BlockKind) (parameters : Option (List Char))
      (contentStart loc stop : Nat)
  | err (e : MatchError)
  | panic
deriving DecidableEq, Repr

/-- The part of `Block::parse` after the block kind is known: parameter
parsing (with the unchecked `byte_arr[curr_ind]` read of block.rs line 59),
needle construction, the end-marker search and the final slicing. -/
def Block.parseAfterKind (buf : List Char) (index : Nat) (name : List Char)
    (kind : BlockKind) (currInd : Nat) : BlockParseRes :=
  match buf.get? currInd with
  | none => .panic
  | some c =>
    let step : Option (Option (List Char) × Nat) :=
      if c = '\n' then some (none, currInd)
      else
        match fnUntil buf currInd (fun ch => ch = '\n') with
        | .error _ => none
        | .ok pm => some (some pm.obj, pm.stop)
    match step with
    | none => .err .EofError
    | some (parameters, currInd1) =>
      let needle := match kind.toEnd with
        | some e => e
        | none => "#+end_".toList ++ name ++ ['\n']
      let searchStart := currInd1 + 1
      match blockEndSearch buf needle searchStart with
      | .panic => .panic
      | .invalid => .err .InvalidLogic
      | .found loc stop =>
        let contentStart := if loc < searchStart then loc else searchStart
        if kind.isLesser then
          .lesser kind parameters ((buf.drop contentStart).take (loc - contentStart)) index stop
        else
          .greaterHead kind parameters contentStart loc stop

/-- `Block::parse` (block.rs lines 23-153): match `#+begin_`, read the block
name, handle `src` languages, then delegate to `Block.parseAfterKind`. -/
def Block.parse (buf : List Char) (index : Nat) : BlockParseRes :=
  match word buf index "#+begin_".toList with
  | .error e => .err e
  | .ok beginCookie =>
    match fnUntil buf beginCookie isAsciiWs with
    | .error e => .err e
    | .ok nameMatch =>
      if beginCookie = nameMatch.stop then .err .InvalidLogic
      else
        let curr0 := skipWs buf nameMatch.stop
        if nameMatch.obj = "src".toList then
          if curr0 = nameMatch.stop then .err .InvalidLogic
          else
            match fnUntil buf curr0 isAsciiWs with
            | .error e => .err e
            | .ok lang =>
              Block.parseAfterKind buf index nameMatch.obj (.Src lang.obj) (skipWs buf lang.stop)
        else
          match BlockKind.fromStr nameMatch.obj with
          | none => .panic
          | some kind => Block.parseAfterKind buf index nameMatch.obj kind curr0

/-- C2: parse totality fails — `Block::parse` panics instead of returning a
recoverable `MatchError` on two whole-buffer inputs: `"#+begin_SRC\n"`
reaches the `unreachable!()` arm of `From<&str> for BlockKind` (the `"src"`
test at block.rs line 45 is case-sensitive while the conversion lowercases),
and `"#+begin_quote "` (trailing space, no newline) reads
`byte_arr[curr_ind]` one past the end of the buffer at block.rs line 59. -/
theorem block_parse_panics :
    Block.parse "#+begin_SRC\n".toList 0 = .panic ∧
    Block.parse "#+begin_quote ".toList 0 = .panic := by
  exact ⟨rfl, rfl⟩

/-- Whitespace-but-not-newline test on a looked-up character, used to state
what "preceded on its own line only by whitespace" means for the walk-back. -/
def wsNotNl : Option Char → Bool
  | some c => isAsciiWs c && !(c = '\n')
  | none => false

/-- Position `p` is preceded on its own line only by whitespace: some earlier
newline exists, and everything strictly between it and `p` is whitespace. -/
def LineWsOnly (buf : List Char) (p : Nat) : Prop :=
  ∃ l, l < p ∧ buf.get? l = some '\n' ∧
    ∀ k, l < k → k < p → wsNotNl (buf.get? k) = true

/-- An occurrence fits inside the buffer. -/
theorem occ_add_le {buf needle : List Char} {m : Nat} (h1 : 1 ≤ needle.length)
    (h : occurrenceAt buf needle m = true) : m + needle.length ≤ buf.length := by
  have he : (buf.drop m).take needle.length = needle := of_decide_eq_true h
  have hmin : min needle.length (buf.length - m) = needle.length := by
    have hl := congrArg List.length he
    rwa [List.length_take, List.length_drop] at hl
  have hle : needle.length ≤ buf.length - m := by
    rw [← hmin]; exact min_le_right _ _
  omega

/-- Characters of an occurrence agree with the needle pointwise. -/
theorem occ_get {buf needle : List Char} {m j : Nat}
    (h : occurrenceAt buf needle m = true) (hj : j < needle.length) :
    buf.get? (m + j) = needle.get? j := by
  have he : (buf.drop m).take needle.length = needle := of_decide_eq_true h
  have hx : ((buf.drop m).take needle.length).get? j = needle.get? j := by rw [he]
  rw [List.get?_eq_getElem?, List.get?_eq_getElem?, List.getElem?_take, if_pos hj,
    List.getElem?_drop] at hx
  rw [List.get?_eq_getElem?, List.get?_eq_getElem?]
  exact hx

/-- No occurrence can start at or past the end of the buffer. -/
theorem occ_false_of_ge {buf needle : List Char} {q : Nat} (h1 : 1 ≤ needle.length)
    (hq : buf.length ≤ q) : occurrenceAt buf needle q = false := by
  unfold occurrenceAt
  rw [List.drop_eq_nil_of_le hq, List.take_nil]
  apply decide_eq_false
  intro hcontra
  rw [← hcontra] at h1
  simp at h1

/-- Two occurrences of a needle whose only newline is its final character
cannot overlap. -/
theorem occ_no_overlap {buf needle : List Char} {m q : Nat}
    (h1 : 1 ≤ needle.length)
    (h2 : needle.get? (needle.length - 1) = some '\n')
    (h3 : ∀ j, j < needle.length - 1 → needle.get? j ≠ some '\n')
    (hm : occurrenceAt buf needle m = true) (hq : occurrenceAt buf needle q = true)
    (hlt : m < q) : m + needle.length ≤ q := by
  by_contra hcon
  push_neg at hcon
  have hi1 : buf.get? (m + (needle.length - 1)) = needle.get? (needle.length - 1) :=
    occ_get hm (by omega)
  have hi2 : buf.get? (q + (m + (needle.length - 1) - q)) =
      needle.get? (m + (needle.length - 1) - q) :=
    occ_get hq (by omega)
  have heq : needle.get? (m + (needle.length - 1) - q) = some '\n' := by
    rw [← hi2, show q + (m + (needle.length - 1) - q) = m + (needle.length - 1) by omega,
      hi1, h2]
  exact h3 _ (by omega) heq

/-- `findOccF` characterization: a returned index is the first occurrence at
or after the start. -/
theorem findOccF_some {buf needle : List Char} {f p m : Nat}
    (h : findOccF buf needle f p = some m) :
    p ≤ m ∧ occurrenceAt buf needle m = true ∧
      ∀ q, p ≤ q → q < m → occurrenceAt buf needle q = false := by
  induction f generalizing p with
  | zero => simp [findOccF] at h
  | succ f ih =>
    unfold findOccF at h
    by_cases hgt : buf.length < p
    · simp [hgt] at h
    · rw [if_neg hgt] at h
      cases hocc : occurrenceAt buf needle p with
      | true =>
        rw [hocc] at h
        simp at h
        subst h
        exact ⟨le_refl _, hocc, fun q hq1 hq2 => ((Nat.not_lt.mpr hq1) hq2).elim⟩
      | false =>
        rw [hocc] at h
        simp at h
        obtain ⟨ha, hb, hc⟩ := ih h
        refine ⟨by omega, hb, ?_⟩
        intro q hq1 hq2
        rcases Nat.eq_or_lt_of_le hq1 with rfl | hlt2
        · exact hocc
        · exact hc q hlt2 hq2

/-- `findOccF` exhaustion: with adequate fuel, `none` means no occurrence at
or after the start. -/
theorem findOccF_none {buf needle : List Char} {f p : Nat}
    (h1 : 1 ≤ needle.length)
    (h : findOccF buf needle f p = none) (hfuel : buf.length < p + f) :
    ∀ q, p ≤ q → occurrenceAt buf needle q = false := by
  induction f generalizing p with
  | zero => intro q hq; exact occ_false_of_ge h1 (by omega)
  | succ f ih =>
    intro q hq
    unfold findOccF at h
    by_cases hgt : buf.length < p
    · exact occ_false_of_ge h1 (by omega)
    · rw [if_neg hgt] at h
      cases hocc : occurrenceAt buf needle p with
      | true => rw [hocc] at h; simp at h
      | false =>
        rw [hocc] at h
        simp at h
        rcases Nat.eq_or_lt_of_le hq with rfl | hlt2
        · exact hocc
        · exact ih h (by omega) q hlt2

/-- The backward walk reaches a newline exactly when only whitespace stands
between that newline and the walk's start. -/
theorem walkback_newlineAt_iff {buf : List Char} {j l : Nat} :
    walkback buf j = .newlineAt l ↔
      (l ≤ j ∧ buf.get? l = some '\n' ∧
        ∀ k, l < k → k ≤ j → wsNotNl (buf.get? k) = true) := by
  induction j with
  | zero =>
    cases hget : buf.get? 0 with
    | none =>
      have hred : walkback buf 0 = .panic := by simp only [walkback]; rw [hget]
      rw [hred]
      constructor
      · intro h; cases h
      · rintro ⟨hl, hnl, -⟩
        have : l = 0 := by omega
        subst this
        rw [hget] at hnl; cases hnl
    | some c =>
      have hred : walkback buf 0 =
          (if c = '\n' then WalkRes.newlineAt 0
           else if isAsciiWs c then WalkRes.panic else WalkRes.reject) := by
        simp only [walkback]; rw [hget]
      rw [hred]
      by_cases hc : c = '\n'
      · subst hc
        rw [if_pos rfl]
        constructor
        · intro h
          cases h
          exact ⟨le_refl _, hget, fun k hk1 hk2 => by omega⟩
        · rintro ⟨hl, hnl, -⟩
          have : l = 0 := by omega
          subst this
          rfl
      · rw [if_neg hc]
        constructor
        · intro h
          by_cases hws : isAsciiWs c
          · rw [if_pos hws] at h; cases h
          · rw [if_neg hws] at h; cases h
        · rintro ⟨hl, hnl, -⟩
          have : l = 0 := by omega
          subst this
          rw [hget] at hnl
          cases hnl
          exact absurd rfl hc
  | succ j ih =>
    cases hget : buf.get? (j + 1) with
    | none =>
      have hred : walkback buf (j + 1) = .panic := by simp only [walkback]; rw [hget]
      rw [hred]
      constructor
      · intro h; cases h
      · rintro ⟨hl, hnl, hall⟩
        rcases Nat.eq_or_lt_of_le hl with rfl | hlt
        · rw [hget] at hnl; cases hnl
        · have := hall (j + 1) (by omega) (le_refl _)
          rw [hget] at this
          simp [wsNotNl] at this
    | some c =>
      have hred : walkback buf (j + 1) =
          (if c = '\n' then WalkRes.newlineAt (j + 1)
           else if isAsciiWs c then walkback buf j else WalkRes.reject) := by
        simp only [walkback]; rw [hget]
      rw [hred]
      by_cases hc : c = '\n'
      · subst hc
        rw [if_pos rfl]
        constructor
        · intro h
          cases h
          exact ⟨le_refl _, hget, fun k hk1 hk2 => by omega⟩
        · rintro ⟨hl, hnl, hall⟩
          rcases Nat.eq_or_lt_of_le hl with rfl | hlt
          · rfl
          · have := hall (j + 1) (by omega) (le_refl _)
            rw [hget] at this
            simp [wsNotNl] at this
      · rw [if_neg hc]
        by_cases hws : isAsciiWs c
        · rw [if_pos hws, ih]
          constructor
          · rintro ⟨hl, hnl, hall⟩
            refine ⟨by omega, hnl, ?_⟩
            intro k hk1 hk2
            rcases Nat.eq_or_lt_of_le hk2 with rfl | hlt
            · rw [hget]
              simp [wsNotNl, hws, hc]
            · exact hall k hk1 (by omega)
          · rintro ⟨hl, hnl, hall⟩
            rcases Nat.eq_or_lt_of_le hl with rfl | hlt
            · rw [hget] at hnl
              cases hnl
              exact absurd rfl hc
            · exact ⟨by omega, hnl, fun k hk1 hk2 => hall k hk1 (by omega)⟩
        · rw [if_neg hws]
          constructor
          · intro h; cases h
          · rintro ⟨hl, hnl, hall⟩
            rcases Nat.eq_or_lt_of_le hl with rfl | hlt
            · rw [hget] at hnl
              cases hnl
              exact absurd rfl hc
            · have := hall (j + 1) (by omega) (le_refl _)
              rw [hget] at this
              simp [wsNotNl, hws] at this

/-- The backward walk cannot underflow when a newline lies at or before its
start and the start is in bounds. -/
theorem walkback_ne_panic (buf : List Char) :
    ∀ j, j < buf.length → ∀ l, l ≤ j → buf.get? l = some '\n' →
      walkback buf j ≠ .panic := by
  intro j
  induction j with
  | zero =>
    intro hj l hl hnl
    have : l = 0 := by omega
    subst this
    unfold walkback
    rw [hnl]
    simp
  | succ j ih =>
    intro hj l hl hnl
    cases hget : buf.get? (j + 1) with
    | none =>
      rw [List.get?_eq_none] at hget
      omega
    | some c =>
      have hred : walkback buf (j + 1) =
          (if c = '\n' then WalkRes.newlineAt (j + 1)
           else if isAsciiWs c then walkback buf j else WalkRes.reject) := by
        simp only [walkback]; rw [hget]
      rw [hred]
      by_cases hc : c = '\n'
      · simp [hc]
      · rw [if_neg hc]
        by_cases hws : isAsciiWs c
        · rw [if_pos hws]
          have hlj : l ≤ j := by
            rcases Nat.eq_or_lt_of_le hl with rfl | hlt
            · rw [hget] at hnl
              cases hnl
              exact absurd rfl hc
            · omega
          exact ih (by omega) l hlj hnl
        · rw [if_neg hws]
          simp

/-- Fuelled end-marker search: it returns the first acceptable occurrence
(`found` with the block end one past the needle) and `invalid` when no
acceptable occurrence exists. -/
theorem endSearchF_spec (buf needle : List Char)
    (h1 : 1 ≤ needle.length)
    (h2 : needle.get? (needle.length - 1) = some '\n')
    (h3 : ∀ j, j < needle.length - 1 → needle.get? j ≠ some '\n') :
    ∀ f pos, 1 ≤ pos → buf.get? (pos - 1) = some '\n' → buf.length < pos + f →
      ((∀ m, pos ≤ m → occurrenceAt buf needle m = true → LineWsOnly buf m →
          (∀ q, pos ≤ q → q < m → occurrenceAt buf needle q = true → ¬ LineWsOnly buf q) →
          ∃ loc, endSearchF buf needle f pos = .found loc (m + needle.length)) ∧
        ((∀ q, pos ≤ q → occurrenceAt buf needle q = true → ¬ LineWsOnly buf q) →
          endSearchF buf needle f pos = .invalid)) := by
  intro f
  induction f with
  | zero =>
    intro pos hpos hprev hfuel
    constructor
    · intro m hm hocc _ _
      have h5 := occ_add_le h1 hocc
      omega
    · intro _; rfl
  | succ f ih =>
    intro pos hpos hprev hfuel
    cases hfind : findOccF buf needle (buf.length + 1 - pos) pos with
    | none =>
      have hnone : ∀ q, pos ≤ q → occurrenceAt buf needle q = false := by
        by_cases hple : pos ≤ buf.length
        · exact findOccF_none h1 hfind (by omega)
        · intro q hq; exact occ_false_of_ge h1 (by omega)
      constructor
      · intro m hm hocc _ _
        rw [hnone m hm] at hocc
        cases hocc
      · intro _
        unfold endSearchF
        rw [hfind]
    | some m =>
      obtain ⟨hpm, hoccm, hnoocc⟩ := findOccF_some hfind
      have hmne : m ≠ 0 := by omega
      have hmlen := occ_add_le h1 hoccm
      have hlastnl : buf.get? (m + needle.length - 1) = some '\n' := by
        have hg := occ_get hoccm (j := needle.length - 1) (by omega)
        rw [h2] at hg
        rw [show m + (needle.length - 1) = m + needle.length - 1 by omega] at hg
        exact hg
      cases hwalk : walkback buf (m - 1) with
      | panic =>
        exact absurd hwalk
          (walkback_ne_panic buf (m - 1) (by omega) (pos - 1) (by omega) hprev)
      | newlineAt loc =>
        have hLWO : LineWsOnly buf m := by
          obtain ⟨hle, hnl, hall⟩ := walkback_newlineAt_iff.mp hwalk
          exact ⟨loc, by omega, hnl, fun k hk1 hk2 => hall k hk1 (by omega)⟩
        have hres : endSearchF buf needle (f + 1) pos = .found loc (m + needle.length) := by
          have hred : endSearchF buf needle (f + 1) pos =
              (match (if m = 0 then WalkRes.panic else walkback buf (m - 1)) with
               | .newlineAt loc2 => SearchRes.found loc2 (m + needle.length)
               | .reject => endSearchF buf needle f (m + needle.length)
               | .panic => SearchRes.panic) := by
            simp only [endSearchF]; rw [hfind]
          rw [hred, if_neg hmne, hwalk]
        constructor
        · intro m' hm' hocc' hLWO' hmin'
          have hmm : m' = m := by
            rcases lt_trichotomy m' m with hlt | heq | hgt
            · rw [hnoocc m' hm' hlt] at hocc'; cases hocc'
            · exact heq
            · exact absurd hLWO (hmin' m hpm hgt hoccm)
          subst hmm
          exact ⟨loc, hres⟩
        · intro hnoacc
          exact absurd hLWO (hnoacc m hpm hoccm)
      | reject =>
        have hnotLWO : ¬ LineWsOnly buf m := by
          rintro ⟨l, hl, hnl, hall⟩
          have hwb : walkback buf (m - 1) = .newlineAt l :=
            walkback_newlineAt_iff.mpr ⟨by omega, hnl, fun k hk1 hk2 => hall k hk1 (by omega)⟩
          rw [hwalk] at hwb
          cases hwb
        have hstep : endSearchF buf needle (f + 1) pos =
            endSearchF buf needle f (m + needle.length) := by
          have hred : endSearchF buf needle (f + 1) pos =
              (match (if m = 0 then WalkRes.panic else walkback buf (m - 1)) with
               | .newlineAt loc2 => SearchRes.found loc2 (m + needle.length)
               | .reject => endSearchF buf needle f (m + needle.length)
               | .panic => SearchRes.panic) := by
            simp only [endSearchF]; rw [hfind]
          rw [hred, if_neg hmne, hwalk]
        have hgap : ∀ q, pos ≤ q → q < m + needle.length →
            occurrenceAt buf needle q = true → ¬ LineWsOnly buf q := by
          intro q hq1 hq2 hq3
          rcases lt_trichotomy q m with hlt | heq | hgt
          · rw [hnoocc q hq1 hlt] at hq3; cases hq3
          · subst heq; exact hnotLWO
          · intro _
            have hover := occ_no_overlap h1 h2 h3 hoccm hq3 hgt
            omega
        obtain ⟨ihA, ihB⟩ := ih (m + needle.length) (by omega) hlastnl (by omega)
        constructor
        · intro m' hm' hocc' hLWO' hmin'
          have hge : m + needle.length ≤ m' := by
            by_contra hcon
            push_neg at hcon
            exact (hgap m' hm' hcon hocc') hLWO'
          rw [hstep]
          exact ihA m' hge hocc' hLWO' (fun q hq1 hq2 hq3 => hmin' q (by omega) hq2 hq3)
        · intro hnoacc
          rw [hstep]
          exact ihB (fun q hq1 hq2 => hnoacc q (by omega) hq2)

/-- C6: the end-marker search of `Block::parse` terminates the block at the
first occurrence of the end needle that is preceded on its own line only by
whitespace (candidates whose line has a non-whitespace character before the
needle are rejected and the search continues forward), and when no acceptable
occurrence exists the search yields `InvalidLogic`; the hypotheses record the
call-site facts that the needle `#+end_<kind>\n` ends with its only newline
and that the search starts just past the newline ending the `#+begin_` line. -/
theorem block_end_marker_search (buf needle : List Char) (pos : Nat)
    (h1 : 1 ≤ needle.length)
    (h2 : needle.get? (needle.length - 1) = some '\n')
    (h3 : ∀ j, j < needle.length - 1 → needle.get? j ≠ some '\n')
    (hpos : 1 ≤ pos)
    (hprev : buf.get? (pos - 1) = some '\n') :
    ((∀ m, pos ≤ m → occurrenceAt buf needle m = true → LineWsOnly buf m →
        (∀ q, pos ≤ q → q < m → occurrenceAt buf needle q = true → ¬ LineWsOnly buf q) →
        ∃ loc, blockEndSearch buf needle pos = .found loc (m + needle.length)) ∧
      ((∀ q, pos ≤ q → occurrenceAt buf needle q = true → ¬ LineWsOnly buf q) →
        blockEndSearch buf needle pos = .invalid)) :=
  endSearchF_spec buf needle h1 h2 h3 (buf.length + 1) pos hpos hprev (by omega)

/-- Witness for C6: on `"\n#+e\n"` the acceptable occurrence at index 1 is
found with end offset 5, and on `"\nx"` (no occurrence at all) the search
reports `InvalidLogic`. -/
theorem block_end_marker_search_witness :
    (∃ loc, blockEndSearch "\n#+e\n".toList "#+e\n".toList 1 = .found loc (1 + 4)) ∧
    blockEndSearch "\nx".toList "#+e\n".toList 1 = .invalid := by
  constructor
  · exact (block_end_marker_search "\n#+e\n".toList "#+e\n".toList 1 (by decide) (by decide)
      (by decide) (by decide) (by decide)).1 1 (le_refl _) (by decide)
      ⟨0, by omega, by decide, fun k hk1 hk2 => by omega⟩
      (fun q hq1 hq2 _ _ => by omega)
  · exact (block_end_marker_search "\nx".toList "#+e\n".toList 1 (by decide) (by decide)
      (by decide) (by decide) (by decide)).2
      (fun q hq1 hocc _ => by
        have h5 := occ_add_le (by decide) hocc
        have h6 : ("\nx".toList).length = 2 := by decide
        have h7 : ("#+e\n".toList).length = 4 := by decide
        omega)

/-! ## The Org exporter's output sink (org.rs lines 656-678) -/

/-- Rust `str::split_inclusive('\n')`: chunks each ending with the newline
except possibly the last; the empty string yields no chunks. -/
def splitInclusiveNl : List Char → List (List Char)
  | [] => []
  | c :: rest =>
    if c = '\n' then [c] :: splitInclusiveNl rest
    else
      match splitInclusiveNl rest with
      | [] => [[c]]
      | chunk :: more => (c :: chunk) :: more

/-- The Org sink state relevant to `write_str`: output buffer, indentation
level and the at-line-start flag. -/
structure OrgWriter where
  out : List Char
  indentation_level : Nat
  on_newline : Bool
deriving DecidableEq, Repr

/-- Two spaces per indentation level, re-emitted at a line start. -/
def indentChars (n : Nat) : List Char := List.replicate (2 * n) ' '

/-- The chunk loop of `write_str` (org.rs lines 659-667), faithful to the
source: for each chunk, emit the indentation if at a line start, update the
line-start flag from the chunk — and then write the whole incoming string `s`
(the source writes `s`, not `chunk`). -/
def writeChunksLoop (level : Nat) (s : List Char) :
    List (List Char) → List Char → Bool → List Char × Bool
  | [], out, onl => (out, onl)
  | chunk :: more, out, onl =>
    let out1 := if onl then out ++ indentChars level else out
    let onl1 := chunk.getLast? = some '\n'
    writeChunksLoop level s more (out1 ++ s) onl1

/-- `fmt::Write for Org` — `write_str` (org.rs lines 656-678): at positive
indentation run the chunk loop, otherwise append the string directly. -/
def OrgWriter.writeStr (w : OrgWriter) (s : List Char) : OrgWriter :=
  if 0 < w.indentation_level then
    let r := writeChunksLoop w.indentation_level s (splitInclusiveNl s) w.out w.on_newline
    { w with out := r.1, on_newline := r.2 }
  else
    { w with out := w.out ++ s }

/-- The emission the claim describes: each chunk of the string written exactly
once, with the indentation re-emitted at every newline boundary before the
next line's content. -/
def writeChunksOnceLoop (level : Nat) :
    List (List Char) → List Char → Bool → List Char × Bool
  | [], out, onl => (out, onl)
  | chunk :: more, out, onl =>
    let out1 := if onl then out ++ indentChars level else out
    let onl1 := chunk.getLast? = some '\n'
    writeChunksOnceLoop level more (out1 ++ chunk) onl1

/-- The claim's intended sink: like `OrgWriter.writeStr` but emitting each
chunk once. -/
def OrgWriter.writeStrOnce (w : OrgWriter) (s : List Char) : OrgWriter :=
  if 0 < w.indentation_level then
    let r := writeChunksOnceLoop w.indentation_level (splitInclusiveNl s) w.out w.on_newline
    { w with out := r.1, on_newline := r.2 }
  else
    { w with out := w.out ++ s }

/-- C7: the indentation-aware sink does NOT emit every string exactly once —
at indentation level 1 (not at a line start), writing the two-chunk string
`"a\nb"` emits the whole string once per chunk, producing `"a\nb  a\nb"`,
whereas the claimed behaviour (each string once, two spaces inserted at the
newline boundary) produces `"a\n  b"`; the two sinks disagree. -/
theorem write_str_duplicates_chunks :
    ((OrgWriter.mk [] 1 false).writeStr "a\nb".toList).out = "a\nb  a\nb".toList ∧
    ((OrgWriter.mk [] 1 false).writeStrOnce "a\nb".toList).out = "a\n  b".toList ∧
    ((OrgWriter.mk [] 1 false).writeStr "a\nb".toList).out ≠
      ((OrgWriter.mk [] 1 false).writeStrOnce "a\nb".toList).out := by
  refine ⟨rfl, rfl, by decide⟩

/-! ## Table rendering (org.rs lines 439-536) -/

/-- Column widths (org.rs lines 486-493): for each column index below `cols`,
fold over all rows taking the maximum rendered cell length; a missing cell
(rule rows are empty vectors; ragged rows lack trailing cells) contributes
zero. -/
def colWidths (cols : Nat) (rows : List (List String)) : List Nat :=
  (List.range cols).map (fun colInd =>
    rows.foldl (fun currMax row => max currMax (((row.get? colInd).map String.length).getD 0)) 0)

/-- The width the claim describes: the maximum rendered length of the column's
cells over the data rows only (rule rows excluded). -/
def specColWidth (rows : List (List String)) (colInd : Nat) : Nat :=
  (((rows.filter (fun r => !r.isEmpty)).map
    (fun r => ((r.get? colInd).map String.length).getD 0)).foldr max 0)

/-- One data-row cell (org.rs lines 513-532): a leading space, the cell text
when present, padding up to the column width, then the trailing space and
closing bar; a missing cell pads the full width. -/
def emitCell (row : List String) (colInd width : Nat) : List Char :=
  let cell := row.get? colInd
  let strang := (cell.getD "").toList
  let diff := if cell.isSome then width - strang.length else width
  [' '] ++ strang ++ List.replicate diff ' ' ++ [' ', '|']

/-- One rendered row (org.rs lines 495-535): rule rows (empty vectors) as
dash fills joined by `+` (the source's `i == inner.cols` test never fires,
every fill group ends with `+`), data rows as padded cells over the column
widths. -/
def emitRow (cols : Nat) (widths : List Nat) (row : List String) : List Char :=
  if row.isEmpty then
    ['|'] ++ (widths.enum.foldl (fun acc iw =>
      acc ++ List.replicate (iw.2 + 2) '-' ++ (if iw.1 = cols then ['|'] else ['+'])) []) ++ ['\n']
  else
    ['|'] ++ (widths.enum.foldl (fun acc iw => acc ++ emitCell row iw.1 iw.2) []) ++ ['\n']

/-- The table arm of `export_rec` (org.rs lines 439-536) once the cell matrix
`build_vec` has been rendered into strings: compute the column widths, then
emit every row in order (at indentation level zero the sink appends
directly). -/
def exportTable (cols : Nat) (rows : List (List String)) : List Char :=
  let widths := colWidths cols rows
  rows.foldl (fun acc row => acc ++ emitRow cols widths row) []

/-- Modelled from the spec: the table grammar (element/table.rs is not under
src/) reduced to what the literal scenario needs — split the input into
lines, each `|`-starting line is a row, cells are the `|`-separated segments
with the leading segment and a trailing empty segment (from a terminating
bar) discarded, each cell trimmed; `cols` is the widest row. -/
def splitOnChar (sep : Char) : List Char → List (List Char)
  | [] => [[]]
  | c :: rest =>
    if c = sep then [] :: splitOnChar sep rest
    else
      match splitOnChar sep rest with
      | [] => [[c]]
      | seg :: more => (c :: seg) :: more

/-- Whitespace trim at both ends (Rust `str::trim` on ASCII input). -/
def trimChars (s : List Char) : List Char :=
  ((s.dropWhile isAsciiWs).reverse.dropWhile isAsciiWs).reverse

/-- Modelled from the spec: cells of one table line (see `splitOnChar`). -/
def tableRowOfLine (line : List Char) : List String :=
  let segs := (splitOnChar '|' line).drop 1
  let segs2 := if segs.getLast? = some [] then segs.dropLast else segs
  segs2.map (fun s => String.mk (trimChars s))

/-- Modelled from the spec: the rendered-cell matrix of a table input. -/
def tableRowsOfInput (input : List Char) : List (List String) :=
  ((splitOnChar '\n' input).filter (fun l => l.head? = some '|')).map tableRowOfLine

/-- Modelled from the spec: the column count, the widest row. -/
def tableColsOf (rows : List (List String)) : Nat :=
  rows.foldl (fun m r => max m r.length) 0

/-- Helper: a running-maximum fold equals the maximum of the start value and
the fold over the mapped list. -/
theorem foldl_max_eq {α : Type} (g : α → Nat) (l : List α) (a : Nat) :
    l.foldl (fun m x => max m (g x)) a = max a ((l.map g).foldr max 0) := by
  induction l generalizing a with
  | nil => simp
  | cons x t ih => simp [ih, Nat.max_assoc]

/-- Helper: rows on which the measure vanishes can be filtered out of a
maximum fold. -/
theorem foldr_max_filter (g : List String → Nat)
    (hg : ∀ r : List String, r.isEmpty = true → g r = 0) (l : List (List String)) :
    ((l.filter (fun r => !r.isEmpty)).map g).foldr max 0 = (l.map g).foldr max 0 := by
  induction l with
  | nil => rfl
  | cons r t ih =>
    by_cases hr : r.isEmpty = true
    · simp [List.filter_cons, hr, hg r hr, ih]
    · simp [List.filter_cons, hr, ih]

/-- Helper: every element is bounded by the maximum fold. -/
theorem elem_le_foldr_max {l : List Nat} {x : Nat} (h : x ∈ l) : x ≤ l.foldr max 0 := by
  induction l with
  | nil => cases h
  | cons y t ih =>
    rcases List.mem_cons.mp h with rfl | h2
    · exact Nat.le_max_left _ _
    · exact le_trans (ih h2) (Nat.le_max_right _ _)

/-- The fold the exporter runs per column equals the claim's width: the
maximum over data rows only. -/
theorem colWidths_eq_spec (cols : Nat) (rows : List (List String)) :
    colWidths cols rows = (List.range cols).map (specColWidth rows) := by
  unfold colWidths specColWidth
  apply List.map_congr_left
  intro i _
  rw [foldl_max_eq, Nat.zero_max, foldr_max_filter]
  intro r hr
  rw [List.isEmpty_iff.mp hr]
  rfl

/-- A data row's cell never exceeds the claim's column width. -/
theorem cell_le_specColWidth {rows : List (List String)} {row : List String}
    (hrow : row ∈ rows) (hne : row.isEmpty = false) (i : Nat) :
    ((row.get? i).getD "").length ≤ specColWidth rows i := by
  unfold specColWidth
  have hmem : row ∈ rows.filter (fun r => !r.isEmpty) :=
    List.mem_filter.mpr ⟨hrow, by simp [hne]⟩
  have hval : ((row.get? i).getD "").length = ((row.get? i).map String.length).getD 0 := by
    cases row.get? i <;> rfl
  rw [hval]
  exact elem_le_foldr_max
    (List.mem_map_of_mem (fun r => ((r.get? i).map String.length).getD 0) hmem)

/-- C3: table rendering is rectangular with max-width columns — the exporter's
column widths are the maxima of the rendered data-row cell lengths (rule rows
contribute nothing), there are exactly `cols` of them, every data row is
emitted as `cols` cells each one leading space, the cell text padded to its
column width, one trailing space and a bar (a missing trailing cell is a blank
cell of the column's width), and the literal scenario
`"|one|two|\n|three|four|\n|five|six|seven|\n|eight\n"` renders as a 3-column
table with widths `[5, 4, 5]` and the expected padded rows. -/
theorem table_rectangular (cols : Nat) (rows : List (List String)) (row : List String)
    (hrow : row ∈ rows) (hne : row.isEmpty = false) :
    colWidths cols rows = (List.range cols).map (specColWidth rows) ∧
    (colWidths cols rows).length = cols ∧
    (∀ i, i < cols →
      ((colWidths cols rows).getD i 0 = specColWidth rows i ∧
       ((row.get? i).getD "").length ≤ specColWidth rows i ∧
       emitCell row i (specColWidth rows i) =
         [' '] ++ ((row.get? i).getD "").toList ++
           List.replicate (specColWidth rows i - ((row.get? i).getD "").length) ' ' ++
           [' ', '|'] ∧
       (emitCell row i (specColWidth rows i)).length = specColWidth rows i + 3 ∧
       (row.get? i = none →
         emitCell row i (specColWidth rows i) =
           [' '] ++ List.replicate (specColWidth rows i) ' ' ++ [' ', '|']))) ∧
    emitRow cols (colWidths cols rows) row =
      ['|'] ++ ((colWidths cols rows).enum.foldl
        (fun acc iw => acc ++ emitCell row iw.1 iw.2) []) ++ ['\n'] ∧
    tableRowsOfInput "|one|two|\n|three|four|\n|five|six|seven|\n|eight\n".toList =
      [["one", "two"], ["three", "four"], ["five", "six", "seven"], ["eight"]] ∧
    tableColsOf [["one", "two"], ["three", "four"], ["five", "six", "seven"], ["eight"]] = 3 ∧
    colWidths 3 [["one", "two"], ["three", "four"], ["five", "six", "seven"], ["eight"]] =
      [5, 4, 5] ∧
    exportTable 3 [["one", "two"], ["three", "four"], ["five", "six", "seven"], ["eight"]] =
      ("| one   | two  |       |\n| three | four |       |\n| five  | six  | seven |\n| eight |      |       |\n").toList := by
  have hcellshape : ∀ i, emitCell row i (specColWidth rows i) =
      [' '] ++ ((row.get? i).getD "").toList ++
        List.replicate (specColWidth rows i - ((row.get? i).getD "").length) ' ' ++
        [' ', '|'] := by
    intro i
    unfold emitCell
    cases hc : row.get? i with
    | none => simp [hc]
    | some s => simp [hc]
  refine ⟨colWidths_eq_spec cols rows, ?_, ?_, ?_, rfl, rfl, rfl, rfl⟩
  · rw [colWidths_eq_spec]
    simp
  · intro i hi
    have hle := cell_le_specColWidth hrow hne i
    refine ⟨?_, hle, hcellshape i, ?_, ?_⟩
    · rw [colWidths_eq_spec]
      rw [List.getD_eq_getElem?_getD, List.getElem?_map, List.getElem?_range hi]
      rfl
    · have htl : (((row.get? i).getD "").toList).length = ((row.get? i).getD "").length := rfl
      rw [hcellshape i]
      simp only [List.append_assoc, List.length_append, List.length_replicate,
        List.length_cons, List.length_nil, htl]
      omega
    · intro hnone
      rw [hcellshape i, hnone]
      simp
  · unfold emitRow
    rw [if_neg (by simp [hne])]

/-- Witness for C3: the literal table scenario, obtained from the claim's
theorem at the row `["five", "six", "seven"]`. -/
theorem table_rectangular_witness :
    colWidths 3 [["one", "two"], ["three", "four"], ["five", "six", "seven"], ["eight"]] =
      [5, 4, 5] ∧
    exportTable 3 [["one", "two"], ["three", "four"], ["five", "six", "seven"], ["eight"]] =
      ("| one   | two  |       |\n| three | four |       |\n| five  | six  | seven |\n| eight |      |       |\n").toList :=
  ⟨(table_rectangular 3 [["one", "two"], ["three", "four"], ["five", "six", "seven"], ["eight"]]
      ["five", "six", "seven"] (by decide) rfl).2.2.2.2.2.2.1,
   (table_rectangular 3 [["one", "two"], ["three", "four"], ["five", "six", "seven"], ["eight"]]
      ["five", "six", "seven"] (by decide) rfl).2.2.2.2.2.2.2⟩

/-! ## Keyword lines and macro definitions
(src/org-parser/src/element/keyword.rs) -/

/-- `ArgNumOrText` from keyword.rs: a literal template segment or a
positional-argument placeholder. -/
inductive ArgNumOrText where
  | Text (s : List Char)
  | ArgNum (n : Nat)
deriving DecidableEq, Repr

/-- `MacroDef` from keyword.rs: highest argument index seen, the template
segments, and the macro's name. -/
structure MacroDef where
  num_args : Nat
  input : List ArgNumOrText
  name : List Char
deriving DecidableEq, Repr

/-- The template loop of `MacroDef::parse` (keyword.rs lines 183-209),
fuelled: on `$` followed by a digit, push the literal text clamped back to
`prev_ind` and the placeholder, track the highest argument index; on a
newline, push the final clamped text and stop; otherwise advance. -/
def MacroDef.parseLoop (buf : List Char) :
    Nat → Nat → Nat → List ArgNumOrText → Nat →
    Except MatchError (List ArgNumOrText × Nat × Nat)
  | 0, _, _, _, _ => .error .EofError
  | f + 1, i, prevInd, acc, numArgs =>
    match buf.get? i with
    | none => .error .EofError
    | some c =>
      if c = '$' then
        match buf.get? (i + 1) with
        | none => .error .EofError
        | some d =>
          if d.isDigit then
            MacroDef.parseLoop buf f (i + 2) (i + 2)
              (acc ++ [.Text ((buf.drop prevInd).take (i - prevInd)), .ArgNum (d.toNat - 48)])
              (max numArgs (d.toNat - 48))
          else
            MacroDef.parseLoop buf f (i + 1) prevInd acc numArgs
      else if c = '\n' then
        .ok (acc ++ [.Text ((buf.drop prevInd).take (i - prevInd))], numArgs, i)
      else
        MacroDef.parseLoop buf f (i + 1) prevInd acc numArgs

/-- `MacroDef::parse` (keyword.rs lines 156-221): skip whitespace, require an
ASCII-alphabetic first name character, read the name, skip whitespace, reject
an empty body, then run the template loop; the returned end offset is one
past the terminating newline. -/
def MacroDef.parse (buf : List Char) (index : Nat) : Except MatchError (MacroDef × Nat) :=
  let i0 := skipWs buf index
  match buf.get? i0 with
  | none => .error .EofError
  | some c =>
    if !c.isAlpha || c = '\n' then .error .InvalidLogic
    else
      match fnWhile buf i0 (fun ch => ch.isAlphanum || ch = '-' || ch = '_') with
      | .error e => .error e
      | .ok nameMatch =>
        let i1 := skipWs buf nameMatch.stop
        match buf.get? i1 with
        | none => .error .EofError
        | some c2 =>
          if c2 = '\n' then .error .InvalidLogic
          else
            match MacroDef.parseLoop buf (buf.length + 1 - i1) i1 i1 [] 0 with
            | .error e => .error e
            | .ok (vec, numArgs, iNl) =>
              .ok (⟨numArgs, vec, nameMatch.obj⟩, iNl + 1)

/-- The macro table: name-to-definition map, insert overwrites
(`parser.macros.insert`). -/
def insertMacro (m : List (List Char × MacroDef)) (k : List Char) (v : MacroDef) :
    List (List Char × MacroDef) :=
  if m.any (fun kv => kv.1 = k) then
    m.map (fun kv => if kv.1 = k then (k, v) else kv)
  else m ++ [(k, v)]

/-- Outcome of `Keyword::parse` (keyword.rs lines 34-139).  The affiliated
branches (`attr_`, `name`, `caption`) eagerly parse a following element via
`parse_element`, which lives outside the excerpted core; the embedding stops
at their classification. -/
inductive KeywordParseRes where
  | macroDef (m : MacroDef) (start stop : Nat)
  | affiliatedAttr
  | affiliatedName
  | affiliatedCaption
  | keyword (key val : List Char) (start stop : Nat)
  | err (e : MatchError)
deriving DecidableEq, Repr

/-- The plain-keyword fallback of `Keyword::parse` (keyword.rs lines
124-137): read the value to the newline, trim it, end one past the value. -/
def Keyword.parsePlain (buf : List Char) (start i2 : Nat) (key : List Char) :
    KeywordParseRes :=
  match fnUntil buf i2 (fun ch => ch = '\n') with
  | .error e => .err e
  | .ok valM => .keyword key (trimChars valM.obj) start (valM.stop + 1)

/-- `Keyword::parse` (keyword.rs lines 34-139) with the macro table threaded
through: match `#+`, classify `attr_` lines, read the key up to a colon,
then dispatch on the lowercased key — `macro` parses and registers a
`MacroDef` (falling back to a plain keyword when that fails), `name` and
`caption` are affiliated, anything else is a plain keyword. -/
def Keyword.parse (buf : List Char) (index : Nat)
    (macros : List (List Char × MacroDef)) :
    KeywordParseRes × List (List Char × MacroDef) :=
  match word buf index "#+".toList with
  | .error e => (.err e, macros)
  | .ok i1 =>
    match word buf i1 "attr_".toList with
    | .ok _ => (.affiliatedAttr, macros)
    | .error _ =>
      match fnUntil buf i1 (fun ch => ch = ':' || isAsciiWs ch) with
      | .error e => (.err e, macros)
      | .ok keyWord =>
        match buf.get? keyWord.stop with
        | none => (.err .EofError, macros)
        | some c =>
          if c ≠ ':' then (.err .InvalidLogic, macros)
          else
            let i2 := keyWord.stop + 1
            let lower := keyWord.obj.map Char.toLower
            if lower = "macro".toList then
              match MacroDef.parse buf i2 with
              | .ok (mac, stop) =>
                (.macroDef mac index stop, insertMacro macros mac.name mac)
              | .error _ => (Keyword.parsePlain buf index i2 keyWord.obj, macros)
            else if lower = "name".toList then (.affiliatedName, macros)
            else if lower = "caption".toList then (.affiliatedCaption, macros)
            else (Keyword.parsePlain buf index i2 keyWord.obj, macros)

/-- Modelled from the spec: export-time macro expansion (`macro_handle` in
crates/org-exporter/src/org_macros.rs, not under src/): substitute each `$N`
placeholder with the corresponding positional argument (literal empty when
missing), concatenating literal segments unchanged. -/
def MacroDef.expand (m : MacroDef) (args : List (List Char)) : List Char :=
  m.input.foldl (fun acc seg =>
    acc ++ match seg with
      | .Text t => t
      | .ArgNum n => (args.get? (n - 1)).getD []) []

/-- The macro definition parsed from the claim's input. -/
def greetDef : MacroDef :=
  ⟨1, [.Text "hello ".toList, .ArgNum 1, .Text []], "greet".toList⟩

/-- C4: on the input `"#+macro: greet hello $1\n{{{greet(world)}}}\n"` the
`#+macro` keyword line registers a `MacroDef` named `greet` whose template is
the literal text `"hello "` followed by the `$1` placeholder (and the empty
trailing literal); expansion substitutes the supplied argument for `$1`
(`"world"` gives `"hello world"`, a missing argument substitutes as empty),
concatenates literal segments unchanged — in general a `Text pre / $n / Text
post` template expands to `pre ++ arg_n ++ post` — and the exported macro
call followed by the paragraph's newline is `"hello world\n"`. -/
theorem macro_define_and_expand :
    (Keyword.parse "#+macro: greet hello $1\n{{{greet(world)}}}\n".toList 0 []).1 =
      .macroDef greetDef 0 24 ∧
    (Keyword.parse "#+macro: greet hello $1\n{{{greet(world)}}}\n".toList 0 []).2 =
      [("greet".toList, greetDef)] ∧
    MacroDef.expand greetDef ["world".toList] = "hello world".toList ∧
    MacroDef.expand greetDef [] = "hello ".toList ∧
    (∀ (nm pre post : List Char) (k n : Nat) (args : List (List Char)),
      MacroDef.expand ⟨k, [.Text pre, .ArgNum n, .Text post], nm⟩ args =
        pre ++ ((args.get? (n - 1)).getD []) ++ post) ∧
    MacroDef.expand greetDef ["world".toList] ++ ['\n'] = "hello world\n".toList := by
  refine ⟨rfl, rfl, rfl, rfl, ?_, rfl⟩
  intro nm pre post k n args
  simp [MacroDef.expand]

/-! ## Node properties (src/crates/org-parser/src/object/node_property.rs) -/

/-- Rust `str::trim_end_matches('+')`: drop every trailing `'+'`. -/
def dropTrailingPlus (s : List Char) : List Char :=
  (s.reverse.dropWhile (fun c => c = '+')).reverse

/-- The `Entry::and_modify/or_insert` update for a `name+` property line:
append a space and the value to the existing entry, or insert the value
as-is. -/
def updateAppendEntry (props : List (List Char × List Char)) (k v : List Char) :
    List (List Char × List Char) :=
  if props.any (fun kv => kv.1 = k) then
    props.map (fun kv => if kv.1 = k then (kv.1, kv.2 ++ ' ' :: v) else kv)
  else props ++ [(k, v)]

/-- Plain map insert: overwrite the entry at the exact key, or add it. -/
def insertEntry (props : List (List Char × List Char)) (k v : List Char) :
    List (List Char × List Char) :=
  if props.any (fun kv => kv.1 = k) then
    props.map (fun kv => if kv.1 = k then (k, v) else kv)
  else props ++ [(k, v)]

/-- `parse_node_property` (node_property.rs lines 14-44): bounds-check the
cursor, skip whitespace, match `:`, read the name up to a colon or
whitespace, match `:`, read the raw value to the newline, trim it, then
either append to the `+`-keyed entry or overwrite the exact key; returns the
offset one past the value line's newline. -/
def parseNodeProperty (buf : List Char) (index : Nat)
    (props : List (List Char × List Char)) :
    Except MatchError (Nat × List (List Char × List Char)) :=
  match buf.get? index with
  | none => .error .EofError
  | some _ =>
    let i1 := skipWs buf index
    match word buf i1 ":".toList with
    | .error e => .error e
    | .ok i2 =>
      match fnUntil buf i2 (fun c => c = ':' || isAsciiWs c) with
      | .error e => .error e
      | .ok nameM =>
        match word buf nameM.stop ":".toList with
        | .error e => .error e
        | .ok i3 =>
          match fnUntil buf i3 (fun c => c = '\n') with
          | .error e => .error e
          | .ok valM =>
            let val := trimChars valM.obj
            let props2 :=
              if nameM.obj.getLast? = some '+' then
                updateAppendEntry props (dropTrailingPlus nameM.obj) val
              else insertEntry props nameM.obj val
            .ok (valM.stop + 1, props2)

/-- Helper: `takeWhile` over a satisfying prefix stops exactly at the first
failing element. -/
theorem takeWhile_all_append {p : Char → Bool} (xs : List Char)
    (h : ∀ x ∈ xs, p x = true) (y : Char) (ys : List Char) (hy : p y = false) :
    (xs ++ y :: ys).takeWhile p = xs := by
  induction xs with
  | nil => simp [List.takeWhile_cons, hy]
  | cons a t ih =>
    have ha : p a = true := h a (List.mem_cons_self a t)
    simp only [List.cons_append, List.takeWhile_cons, ha, if_true]
    rw [ih (fun x hx => h x (List.mem_cons_of_mem a hx))]

/-- Helper: `fnUntil` on a buffer positioned at a clean prefix returns the
prefix and the index of the first stopping character. -/
theorem fnUntil_at_boundary {p : Char → Bool} (pre xs : List Char) (y : Char)
    (ys : List Char) (hxs : ∀ x ∈ xs, p x = false) (hy : p y = true) :
    fnUntil (pre ++ (xs ++ y :: ys)) pre.length p =
      .ok ⟨xs, pre.length + xs.length⟩ := by
  unfold fnUntil
  rw [List.drop_left]
  have ht : (xs ++ y :: ys).takeWhile (fun c => !(p c)) = xs :=
    takeWhile_all_append xs (fun x hx => by simp [hxs x hx]) y ys (by simp [hy])
  rw [ht, if_neg (by simp only [List.length_append, List.length_cons]; omega)]

/-- Helper: `skipWs` at a clean horizontal-whitespace prefix skips exactly
that prefix. -/
theorem skipWs_at_boundary (pre ws : List Char) (y : Char) (ys : List Char)
    (hws : ∀ x ∈ ws, isHorizWs x = true) (hy : isHorizWs y = false) :
    skipWs (pre ++ (ws ++ y :: ys)) pre.length = pre.length + ws.length := by
  unfold skipWs
  rw [List.drop_left, takeWhile_all_append ws hws y ys hy]

/-- Helper: `word` at a boundary where the literal follows. -/
theorem word_at_boundary (pre lit rest : List Char) :
    word (pre ++ (lit ++ rest)) pre.length lit = .ok (pre.length + lit.length) := by
  unfold word
  rw [List.drop_left]
  rw [if_pos]
  rw [List.take_left]

/-- C10: `parse_node_property` on a property line — optional horizontal
whitespace, `:name:`, a value, a newline — stores the whitespace-trimmed
value: a name ending in `'+'` appends the trimmed value, preceded by one
space, to the entry keyed by the name with all trailing `'+'` removed
(inserting as-is when absent), any other name overwrites the entry at the
exact name; the returned offset is one past the value line's newline. -/
theorem node_property_accumulates (ws name value rest : List Char)
    (props : List (List Char × List Char))
    (hws : ∀ c ∈ ws, isHorizWs c = true)
    (hname : ∀ c ∈ name, (c = ':') = False ∧ isAsciiWs c = false)
    (hvalue : ∀ c ∈ value, (c = '\n') = False) :
    parseNodeProperty (ws ++ ':' :: (name ++ ':' :: (value ++ '\n' :: rest))) 0 props =
      .ok (ws.length + name.length + value.length + 3,
        if name.getLast? = some '+' then
          updateAppendEntry props (dropTrailingPlus name) (trimChars value)
        else insertEntry props name (trimChars value)) := by
  have hbuf : ws ++ ':' :: (name ++ ':' :: (value ++ '\n' :: rest)) ≠ [] := by
    cases ws <;> simp
  unfold parseNodeProperty
  match hget : (ws ++ ':' :: (name ++ ':' :: (value ++ '\n' :: rest))).get? 0 with
  | none =>
    rw [List.get?_eq_none] at hget
    exact absurd (List.length_eq_zero.mp (Nat.le_zero.mp hget)) hbuf
  | some c0 =>
    have hskip : skipWs (ws ++ ':' :: (name ++ ':' :: (value ++ '\n' :: rest))) 0 =
        ws.length := by
      have := skipWs_at_boundary ([] : List Char) ws ':'
        (name ++ ':' :: (value ++ '\n' :: rest)) hws rfl
      simpa using this
    have hword1 : word (ws ++ ':' :: (name ++ ':' :: (value ++ '\n' :: rest)))
        ws.length ":".toList = .ok (ws.length + 1) := by
      have := word_at_boundary ws (":".toList) (name ++ ':' :: (value ++ '\n' :: rest))
      simpa using this
    have hname2 : fnUntil (ws ++ ':' :: (name ++ ':' :: (value ++ '\n' :: rest)))
        (ws.length + 1) (fun c => c = ':' || isAsciiWs c) =
        .ok ⟨name, ws.length + 1 + name.length⟩ := by
      have hx := fnUntil_at_boundary (p := fun c => c = ':' || isAsciiWs c)
        (ws ++ [':']) name ':' (value ++ '\n' :: rest)
        (fun x hx => by
          have := hname x hx
          simp [this.1, this.2])
        (by simp)
      simp only [List.append_assoc, List.cons_append, List.nil_append] at hx
      simpa [List.length_append] using hx
    have hword2 : word (ws ++ ':' :: (name ++ ':' :: (value ++ '\n' :: rest)))
        (ws.length + 1 + name.length) ":".toList =
        .ok (ws.length + 1 + name.length + 1) := by
      have hx := word_at_boundary (ws ++ ':' :: name) (":".toList) (value ++ '\n' :: rest)
      simp only [List.append_assoc, List.cons_append, List.nil_append,
        List.length_append, List.length_cons] at hx
      have harr : ws ++ ':' :: (name ++ ':' :: (value ++ '\n' :: rest)) =
          (ws ++ ':' :: name) ++ (':' :: (value ++ '\n' :: rest)) := by
        simp
      rw [harr]
      simpa [Nat.add_comm, Nat.add_assoc, Nat.add_left_comm] using hx
    have hval2 : fnUntil (ws ++ ':' :: (name ++ ':' :: (value ++ '\n' :: rest)))
        (ws.length + 1 + name.length + 1) (fun c => c = '\n') =
        .ok ⟨value, ws.length + 1 + name.length + 1 + value.length⟩ := by
      have hx := fnUntil_at_boundary (p := fun c => c = '\n')
        (ws ++ ':' :: name ++ [':']) value '\n' rest
        (fun x hxm => by simp [hvalue x hxm])
        (by simp)
      have harr : ws ++ ':' :: (name ++ ':' :: (value ++ '\n' :: rest)) =
          (ws ++ ':' :: name ++ [':']) ++ (value ++ '\n' :: rest) := by
        simp
      rw [harr]
      simpa [List.length_append, Nat.add_comm, Nat.add_assoc, Nat.add_left_comm] using hx
    have hfin : ws.length + 1 + name.length + 1 + value.length + 1 =
        ws.length + name.length + value.length + 3 := by omega
    simp only [hskip, hword1, hname2, hword2, hval2, hfin]

/-- Witness for C10: `":var: x \n"` inserts the trimmed value, and
`":var+: y\n"` appends to the existing entry with a single space. -/
theorem node_property_accumulates_witness :
    parseNodeProperty ":var: x \n".toList 0 [] =
      .ok (9, [("var".toList, "x".toList)]) ∧
    parseNodeProperty ":var+: y\n".toList 0 [("var".toList, "x".toList)] =
      .ok (9, [("var".toList, "x y".toList)]) := by
  constructor
  · have h := node_property_accumulates [] "var".toList " x ".toList [] []
      (by intro c hc; cases hc)
      (by decide)
      (by decide)
    simpa using h
  · have h := node_property_accumulates [] "var+".toList " y".toList []
      [("var".toList, "x".toList)]
      (by intro c hc; cases hc)
      (by decide)
      (by decide)
    simpa using h

/-! ## Export-tree walk and error accumulation
(org.rs lines 45-65 and 355-365) -/

/-- An export-time error: the offending node's byte span (the only kind the
embedded constructs produce is the inclusion error of the `#+include`
keyword arm). -/
structure ExportError where
  spanStart : Nat
  spanStop : Nat
deriving DecidableEq, Repr

/-- Exporter state: output text and the accumulated error list (indentation
stays at level zero for the constructs embedded here, where the sink appends
directly). -/
structure OrgState where
  out : List Char
  errors : List ExportError
deriving DecidableEq, Repr

/-- `export_rec` (org.rs lines 92-641) over the embedded constructs, fuelled:
`Root` folds over its children; `Paragraph` folds then writes a newline;
`Plain` writes its text; `BlankLine` writes a newline; a `Keyword` writes
nothing unless its lowercased key is `include`, in which case the resolver's
text is written on success and on failure exactly one inclusion error with
the node's span is appended and nothing is emitted (org.rs lines 355-365).
The resolver stands for `include_handle` (crates/org-exporter/src/include.rs,
not under src/), modelled from the spec: it returns included text or fails
having written nothing. -/
def exportRec (resolve : String → Option String) (pool : NodePool) :
    Nat → Nat → OrgState → OrgState
  | 0, _, st => st
  | f + 1, id, st =>
    match pool.inner_vec.get? id with
    | none => st
    | some n =>
      match n.obj with
      | .Root cs => cs.foldl (fun st2 c => exportRec resolve pool f c st2) st
      | .Paragraph cs =>
        let st2 := cs.foldl (fun st2 c => exportRec resolve pool f c st2) st
        { st2 with out := st2.out ++ ['\n'] }
      | .Plain s => { st with out := st.out ++ s.toList }
      | .BlankLine => { st with out := st.out ++ ['\n'] }
      | .Keyword key val =>
        if key.toList.map Char.toLower = "include".toList then
          match resolve val with
          | some txt => { st with out := st.out ++ txt.toList }
          | none => { st with errors := st.errors ++ [⟨n.start, n.stop⟩] }
        else st

/-- The full export run of `export_tree` (org.rs lines 45-65): fresh state,
walk from the root (id 0). -/
def exportRun (resolve : String → Option String) (pool : NodePool) : OrgState :=
  exportRec resolve pool (pool.inner_vec.length + 1) 0 ⟨[], []⟩

/-- `Org::export_tree` (org.rs lines 45-65): export from the root, then
`Ok(())` when no error was recorded and `Err(errors)` otherwise; the produced
text is what reached the sink either way. -/
def exportTree (resolve : String → Option String) (pool : NodePool) :
    List Char × Except (List ExportError) Unit :=
  ((exportRun resolve pool).out,
   if (exportRun resolve pool).errors.isEmpty then .ok ()
   else .error (exportRun resolve pool).errors)

/-- The concrete document for the continuation scenario: a root with a
paragraph `hello`, an unresolvable `#+include` keyword spanning bytes
6 to 20, and a paragraph `world`. -/
def includePool : NodePool :=
  ⟨[⟨.Root [1, 2, 3], 0, 26, none⟩,
    ⟨.Paragraph [4], 0, 6, some 0⟩,
    ⟨.Keyword "include" "missing.org", 6, 20, some 0⟩,
    ⟨.Paragraph [5], 20, 26, some 0⟩,
    ⟨.Plain "hello", 0, 5, some 1⟩,
    ⟨.Plain "world", 20, 25, some 3⟩], 6⟩

/-- C5: `export_tree` returns `Ok(())` iff no export-time error was recorded,
its `Err` value is always non-empty, a failing `#+include` keyword node emits
nothing, appends exactly one inclusion error carrying the node's span, and
leaves the exporter running — on the concrete document the text around the
failing keyword is still produced and the error list holds exactly that
node's span. -/
theorem export_error_accumulation (resolve : String → Option String) (pool : NodePool) :
    ((exportTree resolve pool).2 = .ok () ↔ (exportRun resolve pool).errors = []) ∧
    (∀ e, (exportTree resolve pool).2 = .error e → e ≠ []) ∧
    (∀ f id st n key val, pool.inner_vec.get? id = some n → n.obj = .Keyword key val →
      key.toList.map Char.toLower = "include".toList → resolve val = none →
      exportRec resolve pool (f + 1) id st =
        { st with errors := st.errors ++ [⟨n.start, n.stop⟩] }) ∧
    exportTree (fun _ => none) includePool =
      ("hello\nworld\n".toList, .error [⟨6, 20⟩]) := by
  refine ⟨?_, ?_, ?_, rfl⟩
  · unfold exportTree
    cases herr : (exportRun resolve pool).errors with
    | nil => simp [herr]
    | cons e t => simp [herr]
  · intro e he
    unfold exportTree at he
    cases herr : (exportRun resolve pool).errors with
    | nil => rw [herr] at he; simp at he
    | cons x t =>
      rw [herr] at he
      simp at he
      rw [← he]
      simp
  · intro f id st n key val hgetid hobj hkey hres
    have hred : exportRec resolve pool (f + 1) id st =
        (match n.obj with
         | .Root cs => cs.foldl (fun st2 c => exportRec resolve pool f c st2) st
         | .Paragraph cs =>
           let st2 := cs.foldl (fun st2 c => exportRec resolve pool f c st2) st
           { st2 with out := st2.out ++ ['\n'] }
         | .Plain s => { st with out := st.out ++ s.toList }
         | .BlankLine => { st with out := st.out ++ ['\n'] }
         | .Keyword key2 val2 =>
           if key2.toList.map Char.toLower = "include".toList then
             match resolve val2 with
             | some txt => { st with out := st.out ++ txt.toList }
             | none => { st with errors := st.errors ++ [⟨n.start, n.stop⟩] }
           else st) := by
      simp only [exportRec]
      rw [hgetid]
    rw [hred, hobj]
    simp only [hkey, hres]
    simp

/-- Witness for C5: the failing-include effect at the concrete keyword node
of the document, with every hypothesis discharged. -/
theorem export_error_accumulation_witness :
    exportRec (fun _ => none) includePool 1 2 ⟨[], []⟩ =
      ⟨[], [⟨6, 20⟩]⟩ :=
  (export_error_accumulation (fun _ => none) includePool).2.2.1 0 2 ⟨[], []⟩
    ⟨.Keyword "include" "missing.org", 6, 20, some 0⟩ "include" "missing.org"
    rfl rfl rfl rfl

end Orgparse
